import Mathlib

/-!
Verification of the healthy-diet-cost dashboard (`src/app.py`).

The pipeline is: load a table of rows → apply a conjunctive filter
(region / country / inclusive year range / cost category) → compute
scalar and grouped means → build chart series (yearly trend, region
average, top/bottom 10 countries, category counts) → emit a CSV of the
filtered rows → generate insight values.

Numeric cost columns are floats in the source; they are embedded as
exact fractions (`Q` below): an integer numerator and a positive
denominator stored as `dpred + 1`, compared by cross-multiplication.
This keeps every operation computable and kernel-reducible.
`pandas` specifics mirrored here: `Series.unique` keeps first-seen
order; `groupby` sorts its keys ascending; `Series.idxmax`/`idxmin`
return the first index attaining the extremum and raise on an empty
series (embedded as `Option`, `none` for the raise); `Series.mean` of
an empty series is NaN (embedded as `Option`, `none` for NaN);
`sort_values` sorts by value (embedded as a stable insertion sort).
-/

/-- Exact fraction: numerator and denominator `dpred + 1 > 0`.
Embeds the float cost columns of the dataframe. -/
structure Q where
  num : Int
  dpred : Nat
deriving DecidableEq, Repr

/-- Denominator of a fraction; positive by construction. -/
def Q.den (q : Q) : Nat := q.dpred + 1

/-- Build a fraction from a numerator and a (intended nonzero) denominator. -/
def Q.mk' (n : Int) (d : Nat) : Q := ⟨n, d - 1⟩

/-- Zero. -/
def Q.zero : Q := ⟨0, 0⟩

/-- Addition of fractions (no normalisation). -/
def Q.add (a b : Q) : Q := ⟨a.num * b.den + b.num * a.den, a.den * b.den - 1⟩

/-- Subtraction of fractions (no normalisation). -/
def Q.sub (a b : Q) : Q := ⟨a.num * b.den - b.num * a.den, a.den * b.den - 1⟩

/-- Division of a fraction by a natural number (the group size in a mean). -/
def Q.divNat (a : Q) (n : Nat) : Q := ⟨a.num, a.den * n - 1⟩

/-- Order on fractions by cross-multiplication. -/
def Q.le (a b : Q) : Prop := a.num * (b.den : Int) ≤ b.num * (a.den : Int)

/-- Strict order on fractions by cross-multiplication. -/
def Q.lt (a b : Q) : Prop := a.num * (b.den : Int) < b.num * (a.den : Int)

/-- Value equality of fractions by cross-multiplication. -/
def Q.eqv (a b : Q) : Prop := a.num * (b.den : Int) = b.num * (a.den : Int)

instance : DecidableRel Q.le := fun a b => inferInstanceAs (Decidable (_ ≤ _))
instance : DecidableRel Q.lt := fun a b => inferInstanceAs (Decidable (_ < _))
instance : DecidableRel Q.eqv := fun a b => inferInstanceAs (Decidable (_ = _))

/-- The value of a fraction as a rational number. -/
def Q.toRat (q : Q) : ℚ := (q.num : ℚ) / (q.den : ℚ)

theorem Q.den_pos (q : Q) : 0 < q.den := Nat.succ_pos _

theorem Q.den_cast_pos (q : Q) : (0 : Int) < (q.den : Int) :=
  Int.natCast_pos.mpr q.den_pos

theorem Q.den_add (a b : Q) : (a.add b).den = a.den * b.den :=
  Nat.sub_add_cancel (Nat.mul_pos a.den_pos b.den_pos)

theorem Q.den_sub (a b : Q) : (a.sub b).den = a.den * b.den :=
  Nat.sub_add_cancel (Nat.mul_pos a.den_pos b.den_pos)

theorem Q.le_total' (a b : Q) : a.le b ∨ b.le a :=
  Int.le_total _ _

theorem Q.le_trans' {a b c : Q} (hab : a.le b) (hbc : b.le c) : a.le c := by
  unfold Q.le at *
  have h1 := mul_le_mul_of_nonneg_right hab (le_of_lt c.den_cast_pos)
  have h2 := mul_le_mul_of_nonneg_right hbc (le_of_lt a.den_cast_pos)
  have h3 : a.num * (c.den : Int) * (b.den : Int) ≤ c.num * (a.den : Int) * (b.den : Int) := by
    nlinarith
  exact le_of_mul_le_mul_right h3 b.den_cast_pos

theorem Q.not_lt_of_le {a b : Q} (h : a.le b) : ¬ b.lt a := by
  unfold Q.le at h
  unfold Q.lt
  omega

theorem Q.eqv_symm {a b : Q} (h : a.eqv b) : b.eqv a := by
  unfold Q.eqv at *
  omega

theorem Q.eqv_trans {a b c : Q} (hab : a.eqv b) (hbc : b.eqv c) : a.eqv c := by
  unfold Q.eqv at *
  have h3 : a.num * (c.den : Int) * (b.den : Int) = c.num * (a.den : Int) * (b.den : Int) := by
    nlinarith
  exact mul_right_cancel₀ (ne_of_gt b.den_cast_pos) h3

theorem Q.eqv_of_not_lt_not_lt {a b : Q} (h1 : ¬ a.lt b) (h2 : ¬ b.lt a) : a.eqv b := by
  unfold Q.lt at *
  unfold Q.eqv
  omega

theorem Q.le_refl' (a : Q) : a.le a := le_refl _

theorem Q.le_of_lt' {a b : Q} (h : a.lt b) : a.le b := le_of_lt h

theorem Q.le_of_not_lt' {a b : Q} (h : ¬ a.lt b) : b.le a := by
  unfold Q.lt at h
  unfold Q.le
  omega

theorem Q.lt_of_le_of_lt' {a b c : Q} (h1 : a.le b) (h2 : b.lt c) : a.lt c := by
  unfold Q.le at h1
  unfold Q.lt at *
  have h3 : a.num * (c.den : Int) * (b.den : Int) < c.num * (a.den : Int) * (b.den : Int) := by
    nlinarith [a.den_cast_pos, b.den_cast_pos, c.den_cast_pos]
  exact lt_of_mul_lt_mul_right h3 (le_of_lt b.den_cast_pos)

theorem Q.lt_of_lt_of_le' {a b c : Q} (h1 : a.lt b) (h2 : b.le c) : a.lt c := by
  unfold Q.le at h2
  unfold Q.lt at *
  have h3 : a.num * (c.den : Int) * (b.den : Int) < c.num * (a.den : Int) * (b.den : Int) := by
    nlinarith [a.den_cast_pos, b.den_cast_pos, c.den_cast_pos]
  exact lt_of_mul_lt_mul_right h3 (le_of_lt b.den_cast_pos)

/-- One row of the source table (`price_of_healthy_diet_clean.csv`). -/
structure Row where
  region : String
  country : String
  year : Nat
  cost_category : String
  cost_healthy_diet_ppp_usd : Q
  annual_cost_healthy_diet_usd : Q
deriving DecidableEq, Repr

/-- The active sidebar filter selection. -/
structure Selection where
  regions : List String
  countries : List String
  year_lo : Nat
  year_hi : Nat
  categories : List String

/-- Lines 54-59 of `app.py`: conjunctive filter over the four predicates
(`isin` on regions, countries and categories, `between` on the year). -/
def filtered_df (df : List Row) (s : Selection) : List Row :=
  df.filter (fun r =>
    decide (r.region ∈ s.regions) && decide (r.country ∈ s.countries) &&
    (decide (s.year_lo ≤ r.year) && decide (r.year ≤ s.year_hi)) &&
    decide (r.cost_category ∈ s.categories))

/-- Embeds `pandas.Series.unique`: distinct values in first-seen order. -/
def unique {α : Type} [DecidableEq α] : List α → List α
  | [] => []
  | a :: l => a :: (unique l).filter (fun b => decide (b ≠ a))

theorem mem_unique {α : Type} [DecidableEq α] {l : List α} {a : α} :
    a ∈ unique l ↔ a ∈ l := by
  induction l with
  | nil => simp [unique]
  | cons x xs ih =>
    by_cases h : a = x
    · simp [unique, h]
    · simp [unique, h, List.mem_filter, ih]

theorem nodup_unique {α : Type} [DecidableEq α] (l : List α) : (unique l).Nodup := by
  induction l with
  | nil => simp [unique]
  | cons x xs ih =>
    refine List.Pairwise.cons ?_ (ih.filter _)
    intro b hb
    have := (List.mem_filter.mp hb).2
    simp at this
    exact fun h => this h.symm

/-- Character-list comparison by code point; total preorder used to
embed the lexicographic string sort done by `groupby`. -/
def lexLeCh : List Char → List Char → Bool
  | [], _ => true
  | _ :: _, [] => false
  | a :: as, b :: bs =>
    if a.toNat < b.toNat then true
    else if b.toNat < a.toNat then false
    else lexLeCh as bs

/-- Lexicographic string order used for `groupby` keys. -/
def strLe (a b : String) : Prop := lexLeCh a.data b.data = true

instance : DecidableRel strLe := fun a b => inferInstanceAs (Decidable (_ = true))

theorem lexLeCh_cons_iff (a b : Char) (as bs : List Char) :
    lexLeCh (a :: as) (b :: bs) = true ↔
      (a.toNat < b.toNat ∨ (a.toNat = b.toNat ∧ lexLeCh as bs = true)) := by
  simp only [lexLeCh]
  by_cases h1 : a.toNat < b.toNat
  · simp [h1]
  · by_cases h2 : b.toNat < a.toNat
    · simp [h1, h2]
      omega
    · have h3 : a.toNat = b.toNat := by omega
      simp [h1, h2, h3]

theorem lexLeCh_total : ∀ x y : List Char, lexLeCh x y = true ∨ lexLeCh y x = true := by
  intro x
  induction x with
  | nil => intro y; left; rfl
  | cons a as ih =>
    intro y
    cases y with
    | nil => right; rfl
    | cons b bs =>
      rw [lexLeCh_cons_iff, lexLeCh_cons_iff]
      rcases ih bs with h | h
      · by_cases hab : a.toNat < b.toNat
        · left; left; exact hab
        · by_cases hba : b.toNat < a.toNat
          · right; left; exact hba
          · left; right; exact ⟨by omega, h⟩
      · by_cases hba : b.toNat < a.toNat
        · right; left; exact hba
        · by_cases hab : a.toNat < b.toNat
          · left; left; exact hab
          · right; right; exact ⟨by omega, h⟩

theorem lexLeCh_trans : ∀ x y z : List Char,
    lexLeCh x y = true → lexLeCh y z = true → lexLeCh x z = true := by
  intro x
  induction x with
  | nil => intro y z _ _; rfl
  | cons a as ih =>
    intro y z hxy hyz
    cases y with
    | nil => simp [lexLeCh] at hxy
    | cons b bs =>
      cases z with
      | nil => simp [lexLeCh] at hyz
      | cons c cs =>
        rw [lexLeCh_cons_iff] at hxy hyz ⊢
        rcases hxy with h1 | ⟨he1, ht1⟩
        · rcases hyz with h2 | ⟨he2, _⟩
          · left; omega
          · left; omega
        · rcases hyz with h2 | ⟨he2, ht2⟩
          · left; omega
          · right; exact ⟨by omega, ih bs cs ht1 ht2⟩

instance : IsTotal String strLe := ⟨fun a b => lexLeCh_total a.data b.data⟩
instance : IsTrans String strLe := ⟨fun a b c => lexLeCh_trans a.data b.data c.data⟩

/-- Sum of a list of fractions. -/
def qsum (l : List Q) : Q := l.foldr Q.add Q.zero

/-- Arithmetic mean of a list of fractions (total; only applied to
nonempty group lists when embedding `groupby(...).mean()`). -/
def meanD (l : List Q) : Q := Q.divNat (qsum l) l.length

/-- Embeds `df.groupby(key)[col].mean()`: one entry per distinct key, keys
sorted ascending by `kle` (pandas sorts group keys), each mapped to the
mean of `val` over the rows of its group. -/
def groupby_mean {κ : Type} [DecidableEq κ] (kle : κ → κ → Prop) [DecidableRel kle]
    (df : List Row) (key : Row → κ) (val : Row → Q) : List (κ × Q) :=
  ((unique (df.map key)).insertionSort kle).map
    (fun k => (k, meanD ((df.filter (fun r => decide (key r = k))).map val)))

/-- Line 69: `filtered_df.groupby("country")["cost_healthy_diet_ppp_usd"].mean()`. -/
def country_avg_cost (v : List Row) : List (String × Q) :=
  groupby_mean strLe v (fun r => r.country) (fun r => r.cost_healthy_diet_ppp_usd)

/-- Line 84: `filtered_df.groupby("year")["cost_healthy_diet_ppp_usd"].mean()`. -/
def yearly_avg (v : List Row) : List (Nat × Q) :=
  groupby_mean (· ≤ ·) v (fun r => r.year) (fun r => r.cost_healthy_diet_ppp_usd)

/-- Line 91: `filtered_df.groupby("region")["cost_healthy_diet_ppp_usd"].mean()`. -/
def region_avg (v : List Row) : List (String × Q) :=
  groupby_mean strLe v (fun r => r.region) (fun r => r.cost_healthy_diet_ppp_usd)

/-- Line 66: mean of the daily-cost column; `none` embeds the NaN pandas
returns on an empty frame. -/
def avg_daily_cost (v : List Row) : Option Q :=
  if v = [] then none
  else some (meanD (v.map (fun r => r.cost_healthy_diet_ppp_usd)))

/-- Line 67: mean of the annual-cost column; `none` embeds NaN. -/
def avg_annual_cost (v : List Row) : Option Q :=
  if v = [] then none
  else some (meanD (v.map (fun r => r.annual_cost_healthy_diet_usd)))

/-- Fold step of `Series.idxmax`: keep the current best unless the next
value is strictly greater (so the first occurrence of the maximum wins). -/
def pickmax {α : Type} (b y : α × Q) : α × Q := if Q.lt b.2 y.2 then y else b

/-- Fold step of `Series.idxmin`: keep the current best unless the next
value is strictly smaller (so the first occurrence of the minimum wins). -/
def pickmin {α : Type} (b y : α × Q) : α × Q := if Q.lt y.2 b.2 then y else b

/-- Embeds `Series.idxmax`: index of the first occurrence of the maximum value;
`none` embeds the `ValueError` pandas raises on an empty series. -/
def idxmax {α : Type} : List (α × Q) → Option α
  | [] => none
  | x :: xs => some (xs.foldl pickmax x).1

/-- Embeds `Series.idxmin`: index of the first occurrence of the minimum value;
`none` embeds the `ValueError` pandas raises on an empty series. -/
def idxmin {α : Type} : List (α × Q) → Option α
  | [] => none
  | x :: xs => some (xs.foldl pickmin x).1

/-- Line 70. -/
def highest_cost_country (v : List Row) : Option String := idxmax (country_avg_cost v)

/-- Line 71. -/
def lowest_cost_country (v : List Row) : Option String := idxmin (country_avg_cost v)

/-- Descending-by-value order for `sort_values(ascending=False)`. -/
def cost_ge (a b : String × Q) : Prop := Q.le b.2 a.2

/-- Ascending-by-value order for `sort_values()`. -/
def cost_le (a b : String × Q) : Prop := Q.le a.2 b.2

instance : DecidableRel cost_ge := fun a b => inferInstanceAs (Decidable (Q.le _ _))
instance : DecidableRel cost_le := fun a b => inferInstanceAs (Decidable (Q.le _ _))
instance : IsTotal (String × Q) cost_ge := ⟨fun a b => by unfold cost_ge; exact Q.le_total' b.2 a.2⟩
instance : IsTotal (String × Q) cost_le := ⟨fun a b => by unfold cost_le; exact Q.le_total' a.2 b.2⟩
instance : IsTrans (String × Q) cost_ge :=
  ⟨fun a b c h1 h2 => by unfold cost_ge at *; exact Q.le_trans' h2 h1⟩
instance : IsTrans (String × Q) cost_le :=
  ⟨fun a b c h1 h2 => by unfold cost_le at *; exact Q.le_trans' h1 h2⟩

/-- Line 97: `country_avg_cost.sort_values(ascending=False).head(10)`. -/
def top10 (v : List Row) : List (String × Q) :=
  ((country_avg_cost v).insertionSort cost_ge).take 10

/-- Line 103: `country_avg_cost.sort_values().head(10)`. -/
def bottom10 (v : List Row) : List (String × Q) :=
  ((country_avg_cost v).insertionSort cost_le).take 10

/-- Descending-by-count order used by `value_counts`. -/
def cnt_ge (a b : String × Nat) : Prop := b.2 ≤ a.2

instance : DecidableRel cnt_ge := fun a b => inferInstanceAs (Decidable (_ ≤ _))
instance : IsTotal (String × Nat) cnt_ge := ⟨fun a b => by unfold cnt_ge; exact Nat.le_total b.2 a.2⟩
instance : IsTrans (String × Nat) cnt_ge :=
  ⟨fun a b c h1 h2 => by unfold cnt_ge at *; exact Nat.le_trans h2 h1⟩

/-- Embeds `Series.value_counts`: one entry per distinct value with its number
of occurrences, sorted by count descending. -/
def value_counts (l : List String) : List (String × Nat) :=
  ((unique l).map (fun c => (c, l.count c))).insertionSort cnt_ge

/-- Lines 109-110: category distribution for the pie chart. -/
def cat_data (v : List Row) : List (String × Nat) :=
  value_counts (v.map (fun r => r.cost_category))

/-- The values derived in the insight block (lines 135-137). -/
structure Insights where
  cost_change : Q
  highest_region : String
deriving DecidableEq, Repr

/-- Ascending order on year-keyed means (tie-broken nowhere; keys distinct). -/
def insights (v : List Row) : Option Insights :=
  if yearly_avg v = [] ∨ region_avg v = [] then none
  else some
    { cost_change := Q.sub ((yearly_avg v).getLastD (0, Q.zero)).2 ((yearly_avg v).headD (0, Q.zero)).2,
      highest_region := (((region_avg v).insertionSort cost_ge).headD ("", Q.zero)).1 }

/-- Line 22-26: region options and default = `df["region"].unique()`. -/
def selected_regions_default (df : List Row) : List String :=
  unique (df.map (fun r => r.region))

/-- Line 28: `df[df["region"].isin(selected_regions)]`. -/
def df_region (df : List Row) (regs : List String) : List Row :=
  df.filter (fun r => decide (r.region ∈ regs))

/-- Lines 31-35: country default = countries of the region-restricted frame. -/
def selected_countries_default (df : List Row) (regs : List String) : List String :=
  unique ((df_region df regs).map (fun r => r.country))

/-- Embeds `Series.min` over a nonempty list (0 as the unreachable empty default). -/
def listMinD : List Nat → Nat
  | [] => 0
  | x :: xs => xs.foldl Nat.min x

/-- Embeds `Series.max` over a nonempty list (0 as the unreachable empty default). -/
def listMaxD : List Nat → Nat
  | [] => 0
  | x :: xs => xs.foldl Nat.max x

/-- Line 38: `int(df["year"].min())`. -/
def year_min (df : List Row) : Nat := listMinD (df.map (fun r => r.year))

/-- Line 38: `int(df["year"].max())`. -/
def year_max (df : List Row) : Nat := listMaxD (df.map (fun r => r.year))

/-- Lines 22-51 with every widget left at its default: all regions, all
countries of those regions, the full year range, all categories. -/
def default_selection (df : List Row) : Selection :=
  { regions := selected_regions_default df,
    countries := selected_countries_default df (selected_regions_default df),
    year_lo := year_min df,
    year_hi := year_max df,
    categories := unique (df.map (fun r => r.cost_category)) }

/-- Lines 54-59 applied to the worked example of the spec (§8): three
rows, filter `regions={Asia}`, `countries={India,Japan}`,
`years=[2020,2020]`, `categories={Low,High}`. -/
def ex_row1 : Row := ⟨"Asia", "India", 2020, "Low", Q.mk' 5 2, Q.mk' 912 1⟩

/-- Second example row. -/
def ex_row2 : Row := ⟨"Asia", "Japan", 2020, "High", Q.mk' 8 1, Q.mk' 2920 1⟩

/-- Third example row. -/
def ex_row3 : Row := ⟨"Europe", "France", 2021, "High", Q.mk' 9 1, Q.mk' 3285 1⟩

/-- The three-row example dataset. -/
def ex_df : List Row := [ex_row1, ex_row2, ex_row3]

/-- The example filter selection. -/
def ex_sel : Selection := ⟨["Asia"], ["India", "Japan"], 2020, 2020, ["Low", "High"]⟩

/-- Entries strictly below the value `v`. -/
def ltv (v : Q) : (String × Q) → Bool := fun x => decide (Q.lt x.2 v)

/-- Entries strictly above the value `v`. -/
def gtv (v : Q) : (String × Q) → Bool := fun x => decide (Q.lt v x.2)

/-- Entries value-equal to `v`. -/
def eqvv (v : Q) : (String × Q) → Bool := fun x => decide (Q.eqv x.2 v)

/-- Twenty distinct country names for top/bottom-10 test views. -/
def c3_countries : List String :=
  ["CA", "CB", "CC", "CD", "CE", "CF", "CG", "CH", "CI", "CJ",
   "CK", "CL", "CM", "CN", "CO", "CP", "CQ", "CR", "CS", "CT"]

/-- A view with `n ≤ 20` rows, one country each, daily cost `i + 1` for
the `i`-th country. -/
def c3_df (n : Nat) : List Row :=
  (List.range n).map (fun i =>
    ⟨"R", c3_countries.getD i "", 2020, "Low", ⟨(i : Int) + 1, 0⟩, ⟨(i : Int) + 1, 0⟩⟩)

/-- Decimal digits of a natural number, most significant first, with
explicit fuel (the number itself) so the recursion is structural. -/
def natDigitsF : Nat → Nat → List Nat
  | 0, n => [n % 10]
  | fuel + 1, n => if n < 10 then [n] else natDigitsF fuel (n / 10) ++ [n % 10]

/-- Decimal digits of a natural number, most significant first. -/
def natDigits (n : Nat) : List Nat := natDigitsF n n

/-- Value of a most-significant-first digit list. -/
def digitsVal (l : List Nat) : Nat := l.foldl (fun a d => 10 * a + d) 0

/-- A decimal digit as a character (code point 48 + digit). -/
def digitToChar (d : Nat) : Char := Char.ofNat (48 + d)

/-- A character as a decimal digit, when it is one. -/
def charToDigit (c : Char) : Option Nat :=
  if 48 ≤ c.toNat ∧ c.toNat ≤ 57 then some (c.toNat - 48) else none

/-- Decimal rendering of a natural number (the `year` column and the
denominators of cost fields in the emitted CSV). -/
def renderNat (n : Nat) : List Char := (natDigits n).map digitToChar

/-- Parse a nonempty digit string back into a natural number. -/
def parseNatCh (cs : List Char) : Option Nat :=
  if cs = [] then none
  else cs.foldlM (fun a c => (charToDigit c).map (fun d => 10 * a + d)) 0

/-- Decimal rendering of an integer. -/
def renderInt : Int → List Char
  | Int.ofNat m => renderNat m
  | Int.negSucc m => '-' :: renderNat (m + 1)

/-- Parse an optionally-negated digit string back into an integer. -/
def parseIntCh (cs : List Char) : Option Int :=
  match cs with
  | [] => none
  | c :: rest =>
    if c = '-' then (parseNatCh rest).map (fun k => -(k : Int))
    else (parseNatCh (c :: rest)).map (fun k => (k : Int))

/-- Textual form of a cost value: numerator, slash, denominator
(an exact-fraction stand-in for the float formatting of `to_csv`). -/
def renderQ (q : Q) : List Char := renderInt q.num ++ '/' :: renderNat q.den

/-- Parse the textual form of a cost value. -/
def parseQCh (cs : List Char) : Option Q :=
  match cs.splitOn '/' with
  | [a, b] =>
    (parseIntCh a).bind (fun n =>
      (parseNatCh b).bind (fun d =>
        if d = 0 then none else some ⟨n, d - 1⟩))
  | _ => none

/-- The six CSV fields of a row, in column order. -/
def rowFields (r : Row) : List (List Char) :=
  [r.region.data, r.country.data, renderNat r.year, r.cost_category.data,
   renderQ r.cost_healthy_diet_ppp_usd, renderQ r.annual_cost_healthy_diet_usd]

/-- One CSV line: the fields joined by commas. -/
def renderLine (r : Row) : List Char := List.intercalate [','] (rowFields r)

/-- The header fields of the emitted CSV. -/
def headerFields : List (List Char) :=
  ["region".data, "country".data, "year".data, "cost_category".data,
   "cost_healthy_diet_ppp_usd".data, "annual_cost_healthy_diet_usd".data]

/-- The CSV header line. -/
def headerLine : List Char := List.intercalate [','] headerFields

/-- Line 124: `filtered_df.to_csv(index=False)` — header line followed
by one line per filtered row, newline-separated. -/
def csv_data (v : List Row) : List Char :=
  List.intercalate ['\n'] (headerLine :: v.map renderLine)

/-- Line 128: the download file name. -/
def file_name : String := "filtered_healthy_diet_data.csv"

/-- Line 129: the download MIME type. -/
def mime_type : String := "text/csv"

/-- Parse one CSV line back into a row. -/
def parseLine (cs : List Char) : Option Row :=
  match cs.splitOn ',' with
  | [f1, f2, f3, f4, f5, f6] =>
    (parseNatCh f3).bind (fun y =>
      (parseQCh f5).bind (fun c1 =>
        (parseQCh f6).bind (fun c2 =>
          some ⟨String.mk f1, String.mk f2, y, String.mk f4, c1, c2⟩)))
  | _ => none

/-- Parse a list of CSV lines back into rows; fails if any line fails. -/
def parseLines : List (List Char) → Option (List Row)
  | [] => some []
  | l :: ls =>
    (parseLine l).bind (fun r => (parseLines ls).bind (fun rs => some (r :: rs)))

/-- Re-parse a downloaded CSV: split into lines, check the header,
parse each remaining line as a row. -/
def parse_csv (cs : List Char) : Option (List Row) :=
  match cs.splitOn '\n' with
  | [] => none
  | h :: rest => if h = headerLine then parseLines rest else none

/-- A string field that the comma/newline-separated CSV can carry
faithfully. -/
def goodStr (s : String) : Prop := (',' ∉ s.data) ∧ ('\n' ∉ s.data)

/-- A row whose three string fields are CSV-safe. -/
def goodRow (r : Row) : Prop :=
  goodStr r.region ∧ goodStr r.country ∧ goodStr r.cost_category

instance (s : String) : Decidable (goodStr s) := by
  unfold goodStr
  infer_instance

instance (r : Row) : Decidable (goodRow r) := by
  unfold goodRow
  infer_instance

theorem foldl_min_spec (xs : List Nat) (acc : Nat) :
    xs.foldl Nat.min acc ≤ acc ∧ ∀ y ∈ xs, xs.foldl Nat.min acc ≤ y := by
  induction xs generalizing acc with
  | nil => simp
  | cons z zs ih =>
    have h := ih (Nat.min acc z)
    refine ⟨le_trans h.1 (Nat.min_le_left _ _), ?_⟩
    intro y hy
    rcases List.mem_cons.mp hy with rfl | hy
    · exact le_trans h.1 (Nat.min_le_right _ _)
    · exact h.2 y hy

theorem foldl_max_spec (xs : List Nat) (acc : Nat) :
    acc ≤ xs.foldl Nat.max acc ∧ ∀ y ∈ xs, y ≤ xs.foldl Nat.max acc := by
  induction xs generalizing acc with
  | nil => simp
  | cons z zs ih =>
    have h := ih (Nat.max acc z)
    refine ⟨le_trans (Nat.le_max_left _ _) h.1, ?_⟩
    intro y hy
    rcases List.mem_cons.mp hy with rfl | hy
    · exact le_trans (Nat.le_max_right _ _) h.1
    · exact h.2 y hy

theorem listMinD_le_of_mem {l : List Nat} {y : Nat} (hy : y ∈ l) : listMinD l ≤ y := by
  cases l with
  | nil => cases hy
  | cons x xs =>
    rcases List.mem_cons.mp hy with rfl | hy
    · exact (foldl_min_spec xs y).1
    · exact (foldl_min_spec xs x).2 y hy

theorem le_listMaxD_of_mem {l : List Nat} {y : Nat} (hy : y ∈ l) : y ≤ listMaxD l := by
  cases l with
  | nil => cases hy
  | cons x xs =>
    rcases List.mem_cons.mp hy with rfl | hy
    · exact (foldl_max_spec xs y).1
    · exact (foldl_max_spec xs x).2 y hy

/-- C1: the filtered view contains exactly the dataset rows passing all
four predicates — membership in it is equivalent to membership in the
dataset together with region, country, inclusive year range and
category selection; hence any excluded dataset row fails at least one
predicate. -/
theorem c1_filter_exact (df : List Row) (s : Selection) (r : Row) :
    r ∈ filtered_df df s ↔
      r ∈ df ∧ r.region ∈ s.regions ∧ r.country ∈ s.countries ∧
        (s.year_lo ≤ r.year ∧ r.year ≤ s.year_hi) ∧ r.cost_category ∈ s.categories := by
  simp [filtered_df, List.mem_filter, and_assoc]

/-- C4: with every widget at its default (all regions, all countries of
those regions, the full year range, all categories) the filter returns
the dataset unchanged, same rows in the same order. -/
theorem c4_default_selection_identity (df : List Row) (h : df ≠ []) :
    filtered_df df (default_selection df) = df := by
  have hreg : ∀ r ∈ df, r.region ∈ selected_regions_default df := by
    intro r hr
    exact mem_unique.mpr (List.mem_map_of_mem _ hr)
  have hdfreg : df_region df (selected_regions_default df) = df := by
    apply List.filter_eq_self.mpr
    intro r hr
    simpa using hreg r hr
  apply List.filter_eq_self.mpr
  intro r hr
  simp only [default_selection, Bool.and_eq_true, decide_eq_true_eq]
  refine ⟨⟨⟨hreg r hr, ?_⟩, ?_, ?_⟩, ?_⟩
  · unfold selected_countries_default
    rw [hdfreg]
    exact mem_unique.mpr (List.mem_map_of_mem _ hr)
  · exact listMinD_le_of_mem (List.mem_map_of_mem _ hr)
  · exact le_listMaxD_of_mem (List.mem_map_of_mem _ hr)
  · exact mem_unique.mpr (List.mem_map_of_mem _ hr)

/-- Closed instance of `c4_default_selection_identity` on the example
dataset. -/
theorem c4_default_selection_identity_witness :
    ex_df ≠ [] ∧ filtered_df ex_df (default_selection ex_df) = ex_df :=
  ⟨by decide, c4_default_selection_identity ex_df (by decide)⟩

/-- C2 (code bug): deselecting every region makes the filtered view
empty, and on the empty view the grouped-mean series is empty, so
`idxmax`/`idxmin` (lines 70-71) operate on an empty series — embedded
as `none`, the case in which pandas raises
`ValueError: attempt to get argmax of an empty sequence` instead of the
"no data" degradation the spec requires.  The scalar means correctly
degrade to `none` (NaN). -/
theorem c2_empty_selection_idxmax_raises (df : List Row) (cs : List String)
    (lo hi : Nat) (cats : List String) :
    filtered_df df ⟨[], cs, lo, hi, cats⟩ = [] ∧
    country_avg_cost [] = [] ∧
    highest_cost_country (filtered_df df ⟨[], cs, lo, hi, cats⟩) = none ∧
    lowest_cost_country (filtered_df df ⟨[], cs, lo, hi, cats⟩) = none ∧
    avg_daily_cost (filtered_df df ⟨[], cs, lo, hi, cats⟩) = none ∧
    avg_annual_cost (filtered_df df ⟨[], cs, lo, hi, cats⟩) = none := by
  have hempty : filtered_df df ⟨[], cs, lo, hi, cats⟩ = [] := by
    unfold filtered_df
    apply List.filter_eq_nil_iff.mpr
    intro r _
    simp
  refine ⟨hempty, rfl, ?_, ?_, ?_, ?_⟩ <;> rw [hempty] <;> rfl

/-- C8: the worked example — the filtered view is exactly the first two
rows, the mean daily cost is 5.25, Japan/India are the extreme
countries, and the Top-10 series is Japan (8.0) then India (2.5). -/
theorem c8_example_scenario :
    filtered_df ex_df ex_sel = [ex_row1, ex_row2] ∧
    (avg_daily_cost (filtered_df ex_df ex_sel)).map Q.toRat = some (5.25 : ℚ) ∧
    highest_cost_country (filtered_df ex_df ex_sel) = some "Japan" ∧
    lowest_cost_country (filtered_df ex_df ex_sel) = some "India" ∧
    (top10 (filtered_df ex_df ex_sel)).map (fun p => (p.1, Q.toRat p.2)) =
      [("Japan", (8 : ℚ)), ("India", (2.5 : ℚ))] := by
  have h1 : filtered_df ex_df ex_sel = [ex_row1, ex_row2] := by decide
  have h2 : avg_daily_cost (filtered_df ex_df ex_sel) = some ⟨21, 3⟩ := by decide
  have h3 : top10 (filtered_df ex_df ex_sel) = [("Japan", ⟨8, 0⟩), ("India", ⟨5, 1⟩)] := by decide
  refine ⟨h1, ?_, by decide, by decide, ?_⟩
  · rw [h2]
    show some (Q.toRat ⟨21, 3⟩) = some (5.25 : ℚ)
    norm_num [Q.toRat, Q.den]
  · rw [h3]
    show [("Japan", Q.toRat ⟨8, 0⟩), ("India", Q.toRat ⟨5, 1⟩)] = _
    norm_num [Q.toRat, Q.den]

/-- C5: the insight cost change is last-minus-first of the yearly-average
sequence; with exactly one yearly entry it is zero; with an empty
yearly-average sequence no insight values are produced (and nothing is
raised — the block is guarded by the emptiness test of line 135). -/
theorem c5_insight_cost_change (v : List Row) :
    (yearly_avg v = [] → insights v = none) ∧
    (∀ i, insights v = some i →
      i.cost_change =
        Q.sub ((yearly_avg v).getLastD (0, Q.zero)).2 ((yearly_avg v).headD (0, Q.zero)).2) ∧
    (∀ y i, yearly_avg v = [y] → insights v = some i → Q.eqv i.cost_change Q.zero) := by
  have hchange : ∀ i, insights v = some i →
      i.cost_change =
        Q.sub ((yearly_avg v).getLastD (0, Q.zero)).2 ((yearly_avg v).headD (0, Q.zero)).2 := by
    intro i hi
    unfold insights at hi
    by_cases hc : yearly_avg v = [] ∨ region_avg v = []
    · rw [if_pos hc] at hi
      cases hi
    · rw [if_neg hc] at hi
      cases hi
      rfl
  refine ⟨?_, hchange, ?_⟩
  · intro h
    unfold insights
    rw [if_pos (Or.inl h)]
  · intro y i hy hi
    have h := hchange i hi
    rw [hy] at h
    have hl : ([y] : List (Nat × Q)).getLastD (0, Q.zero) = y := rfl
    have hh : ([y] : List (Nat × Q)).headD (0, Q.zero) = y := rfl
    rw [hl, hh] at h
    rw [h]
    simp [Q.eqv, Q.sub, Q.zero, Q.den]

/-- Closed instance of `c5_insight_cost_change`: a one-row view has a
one-entry yearly average and a zero cost change, and the empty view
yields no insights. -/
theorem c5_insight_cost_change_witness :
    Q.eqv (Insights.cost_change ⟨⟨0, 3⟩, "Asia"⟩) Q.zero ∧ insights [] = none :=
  ⟨(c5_insight_cost_change [ex_row1]).2.2 (2020, ⟨5, 1⟩) ⟨⟨0, 3⟩, "Asia"⟩ (by decide) (by decide),
   (c5_insight_cost_change []).1 rfl⟩

theorem groupby_mean_keys {κ : Type} [DecidableEq κ] (kle : κ → κ → Prop) [DecidableRel kle]
    (df : List Row) (key : Row → κ) (val : Row → Q) :
    (groupby_mean kle df key val).map Prod.fst = (unique (df.map key)).insertionSort kle := by
  unfold groupby_mean
  rw [List.map_map]
  have h : (Prod.fst ∘ fun k =>
      (k, meanD ((df.filter (fun r => decide (key r = k))).map val))) = id := rfl
  rw [h, List.map_id]

/-- C10: the Region Average series is sorted ascending by region key and
the Yearly Trend series is sorted ascending by year, because `groupby`
sorts its keys. -/
theorem c10_groupby_orderings (v : List Row) :
    List.Sorted strLe ((region_avg v).map Prod.fst) ∧
    List.Sorted (· ≤ ·) ((yearly_avg v).map Prod.fst) := by
  constructor
  · rw [region_avg, groupby_mean_keys]
    exact List.sorted_insertionSort _ _
  · rw [yearly_avg, groupby_mean_keys]
    exact List.sorted_insertionSort _ _

theorem length_filter_or_disjoint {α : Type} (p q : α → Bool)
    (h : ∀ x, ¬(p x = true ∧ q x = true)) :
    ∀ l : List α, (l.filter (fun x => p x || q x)).length =
      (l.filter p).length + (l.filter q).length := by
  intro l
  induction l with
  | nil => simp
  | cons a l ih =>
    by_cases hp : p a
    · have hq : ¬ q a = true := fun hq => h a ⟨hp, hq⟩
      simp [List.filter_cons, hp, hq, ih]
      omega
    · by_cases hq : q a = true
      · simp [List.filter_cons, hp, hq, ih]
        omega
      · simp [List.filter_cons, hp, hq, ih]

theorem sum_counts_of_nodup {α : Type} [DecidableEq α] (l : List α) :
    ∀ u : List α, u.Nodup →
      (u.map (fun c => l.count c)).sum = (l.filter (fun x => decide (x ∈ u))).length := by
  intro u
  induction u with
  | nil => simp
  | cons c u' ih =>
    intro hnd
    have hc : c ∉ u' := (List.nodup_cons.mp hnd).1
    have hnd' : u'.Nodup := (List.nodup_cons.mp hnd).2
    have hsplit : (l.filter (fun x => decide (x ∈ c :: u'))).length =
        (l.filter (fun x => decide (x = c))).length + (l.filter (fun x => decide (x ∈ u'))).length := by
      have hcongr : l.filter (fun x => decide (x ∈ c :: u')) =
          l.filter (fun x => decide (x = c) || decide (x ∈ u')) := by
        apply List.filter_congr
        intro x _
        simp only [List.mem_cons]
        by_cases h1 : x = c
        · simp [h1]
        · by_cases h2 : x ∈ u'
          · simp [h1, h2]
          · simp [h1, h2]
      rw [hcongr]
      apply length_filter_or_disjoint
      intro x hx
      have h1 : x = c := by simpa using hx.1
      have h2 : x ∈ u' := by simpa using hx.2
      exact hc (h1 ▸ h2)
    have hcount : l.count c = (l.filter (fun x => decide (x = c))).length := by
      rw [List.count_eq_countP, List.countP_eq_length_filter]
      have hfuns : (fun (x : α) => x == c) = (fun x => decide (x = c)) := by
        funext x
        by_cases h : x = c
        · simp [h]
        · simp [h]
      rw [hfuns]
    simp only [List.map_cons, List.sum_cons, hsplit, ih hnd', hcount]

theorem sum_counts_unique {α : Type} [DecidableEq α] (l : List α) :
    ((unique l).map (fun c => l.count c)).sum = l.length := by
  rw [sum_counts_of_nodup l (unique l) (nodup_unique l)]
  have : l.filter (fun x => decide (x ∈ unique l)) = l := by
    apply List.filter_eq_self.mpr
    intro a ha
    simpa using mem_unique.mpr ha
  rw [this]

/-- C9: the Category Distribution series has exactly one entry per
distinct category present in the view (distinct keys, key set = the
categories occurring in the view) and its counts sum to the number of
rows of the view. -/
theorem c9_cat_data_partition (v : List Row) :
    ((cat_data v).map Prod.fst).Nodup ∧
    (∀ c, c ∈ (cat_data v).map Prod.fst ↔ c ∈ v.map (fun r => r.cost_category)) ∧
    ((cat_data v).map Prod.snd).sum = v.length := by
  have hperm : List.Perm (cat_data v)
      ((unique (v.map (fun r => r.cost_category))).map
        (fun c => (c, (v.map (fun r => r.cost_category)).count c))) :=
    List.perm_insertionSort _ _
  have hkeys : List.Perm ((cat_data v).map Prod.fst)
      (unique (v.map (fun r => r.cost_category))) := by
    have h := hperm.map Prod.fst
    have hid : (Prod.fst ∘ fun c =>
        (c, (v.map (fun r => r.cost_category)).count c)) = id := rfl
    rw [List.map_map, hid, List.map_id] at h
    exact h
  refine ⟨?_, ?_, ?_⟩
  · exact hkeys.symm.nodup (nodup_unique _)
  · intro c
    rw [hkeys.mem_iff, mem_unique]
  · have hsnd : List.Perm ((cat_data v).map Prod.snd)
        ((unique (v.map (fun r => r.cost_category))).map
          (fun c => (v.map (fun r => r.cost_category)).count c)) := by
      have h := hperm.map Prod.snd
      have hid : (Prod.snd ∘ fun c =>
          (c, (v.map (fun r => r.cost_category)).count c)) =
          (fun c => (v.map (fun r => r.cost_category)).count c) := rfl
      rw [List.map_map, hid] at h
      exact h
    rw [hsnd.sum_eq, sum_counts_unique]
    simp

theorem foldl_pickmax_spec {α : Type} :
    ∀ (xs : List (α × Q)) (acc : α × Q),
      ∃ pre post,
        acc :: xs = pre ++ (xs.foldl pickmax acc) :: post ∧
        (∀ q ∈ acc :: xs, Q.le q.2 (xs.foldl pickmax acc).2) ∧
        (∀ q ∈ pre, Q.lt q.2 (xs.foldl pickmax acc).2) := by
  intro xs
  induction xs with
  | nil =>
    intro acc
    refine ⟨[], [], rfl, ?_, by simp⟩
    intro q hq
    rcases List.mem_singleton.mp hq with rfl
    exact Q.le_refl' _
  | cons y ys ih =>
    intro acc
    simp only [List.foldl_cons]
    by_cases hlt : Q.lt acc.2 y.2
    · have hstep : pickmax acc y = y := if_pos hlt
      rw [hstep]
      obtain ⟨pre', post', heq, hle, hpre⟩ := ih y
      refine ⟨acc :: pre', post', ?_, ?_, ?_⟩
      · rw [List.cons_append, ← heq]
      · intro q hq
        rcases List.mem_cons.mp hq with rfl | hq
        · exact Q.le_trans' (Q.le_of_lt' hlt) (hle y (List.mem_cons_self _ _))
        · exact hle q hq
      · intro q hq
        rcases List.mem_cons.mp hq with rfl | hq
        · exact Q.lt_of_lt_of_le' hlt (hle y (List.mem_cons_self _ _))
        · exact hpre q hq
    · have hstep : pickmax acc y = acc := if_neg hlt
      rw [hstep]
      obtain ⟨pre', post', heq, hle, hpre⟩ := ih acc
      cases pre' with
      | nil =>
        simp only [List.nil_append] at heq
        injection heq with h1 h2
        refine ⟨[], y :: ys, ?_, ?_, by simp⟩
        · simp only [List.nil_append]
          rw [← h1]
        · intro q hq
          rcases List.mem_cons.mp hq with rfl | hq
          · exact hle q (List.mem_cons_self _ _)
          · rcases List.mem_cons.mp hq with rfl | hq
            · rw [← h1]
              exact Q.le_of_not_lt' hlt
            · exact hle q (List.mem_cons_of_mem _ hq)
      | cons a' pre'' =>
        rw [List.cons_append] at heq
        injection heq with h1 h2
        have hacc_pre : acc ∈ a' :: pre'' := h1 ▸ List.mem_cons_self a' pre''
        refine ⟨acc :: y :: pre'', post', ?_, ?_, ?_⟩
        · simp only [List.cons_append]
          rw [← h2]
        · intro q hq
          rcases List.mem_cons.mp hq with rfl | hq
          · exact hle q (List.mem_cons_self _ _)
          · rcases List.mem_cons.mp hq with rfl | hq
            · exact Q.le_of_lt' (Q.lt_of_le_of_lt' (Q.le_of_not_lt' hlt) (hpre acc hacc_pre))
            · exact hle q (List.mem_cons_of_mem _ hq)
        · intro q hq
          rcases List.mem_cons.mp hq with rfl | hq
          · exact hpre q hacc_pre
          · rcases List.mem_cons.mp hq with rfl | hq
            · exact Q.lt_of_le_of_lt' (Q.le_of_not_lt' hlt) (hpre acc hacc_pre)
            · exact hpre q (h1 ▸ List.mem_cons_of_mem a' hq)

theorem foldl_pickmin_spec {α : Type} :
    ∀ (xs : List (α × Q)) (acc : α × Q),
      ∃ pre post,
        acc :: xs = pre ++ (xs.foldl pickmin acc) :: post ∧
        (∀ q ∈ acc :: xs, Q.le (xs.foldl pickmin acc).2 q.2) ∧
        (∀ q ∈ pre, Q.lt (xs.foldl pickmin acc).2 q.2) := by
  intro xs
  induction xs with
  | nil =>
    intro acc
    refine ⟨[], [], rfl, ?_, by simp⟩
    intro q hq
    rcases List.mem_singleton.mp hq with rfl
    exact Q.le_refl' _
  | cons y ys ih =>
    intro acc
    simp only [List.foldl_cons]
    by_cases hlt : Q.lt y.2 acc.2
    · have hstep : pickmin acc y = y := if_pos hlt
      rw [hstep]
      obtain ⟨pre', post', heq, hle, hpre⟩ := ih y
      refine ⟨acc :: pre', post', ?_, ?_, ?_⟩
      · rw [List.cons_append, ← heq]
      · intro q hq
        rcases List.mem_cons.mp hq with rfl | hq
        · exact Q.le_trans' (hle y (List.mem_cons_self _ _)) (Q.le_of_lt' hlt)
        · exact hle q hq
      · intro q hq
        rcases List.mem_cons.mp hq with rfl | hq
        · exact Q.lt_of_le_of_lt' (hle y (List.mem_cons_self _ _)) hlt
        · exact hpre q hq
    · have hstep : pickmin acc y = acc := if_neg hlt
      rw [hstep]
      obtain ⟨pre', post', heq, hle, hpre⟩ := ih acc
      cases pre' with
      | nil =>
        simp only [List.nil_append] at heq
        injection heq with h1 h2
        refine ⟨[], y :: ys, ?_, ?_, by simp⟩
        · simp only [List.nil_append]
          rw [← h1]
        · intro q hq
          rcases List.mem_cons.mp hq with rfl | hq
          · exact hle q (List.mem_cons_self _ _)
          · rcases List.mem_cons.mp hq with rfl | hq
            · rw [← h1]
              exact Q.le_of_not_lt' hlt
            · exact hle q (List.mem_cons_of_mem _ hq)
      | cons a' pre'' =>
        rw [List.cons_append] at heq
        injection heq with h1 h2
        have hacc_pre : acc ∈ a' :: pre'' := h1 ▸ List.mem_cons_self a' pre''
        refine ⟨acc :: y :: pre'', post', ?_, ?_, ?_⟩
        · simp only [List.cons_append]
          rw [← h2]
        · intro q hq
          rcases List.mem_cons.mp hq with rfl | hq
          · exact hle q (List.mem_cons_self _ _)
          · rcases List.mem_cons.mp hq with rfl | hq
            · exact Q.le_of_lt' (Q.lt_of_lt_of_le' (hpre acc hacc_pre) (Q.le_of_not_lt' hlt))
            · exact hle q (List.mem_cons_of_mem _ hq)
        · intro q hq
          rcases List.mem_cons.mp hq with rfl | hq
          · exact hpre q hacc_pre
          · rcases List.mem_cons.mp hq with rfl | hq
            · exact Q.lt_of_lt_of_le' (hpre acc hacc_pre) (Q.le_of_not_lt' hlt)
            · exact hpre q (h1 ▸ List.mem_cons_of_mem a' hq)

theorem idxmax_first_max {α : Type} {m : List (α × Q)} (h : m ≠ []) :
    ∃ p pre post, idxmax m = some p.1 ∧ m = pre ++ p :: post ∧
      (∀ q ∈ m, Q.le q.2 p.2) ∧ (∀ q ∈ pre, Q.lt q.2 p.2) := by
  cases m with
  | nil => exact absurd rfl h
  | cons x xs =>
    obtain ⟨pre, post, heq, hle, hpre⟩ := foldl_pickmax_spec xs x
    exact ⟨xs.foldl pickmax x, pre, post, rfl, heq, fun q hq => hle q (heq ▸ hq),
      fun q hq => hpre q hq⟩

theorem idxmin_first_min {α : Type} {m : List (α × Q)} (h : m ≠ []) :
    ∃ p pre post, idxmin m = some p.1 ∧ m = pre ++ p :: post ∧
      (∀ q ∈ m, Q.le p.2 q.2) ∧ (∀ q ∈ pre, Q.lt p.2 q.2) := by
  cases m with
  | nil => exact absurd rfl h
  | cons x xs =>
    obtain ⟨pre, post, heq, hle, hpre⟩ := foldl_pickmin_spec xs x
    exact ⟨xs.foldl pickmin x, pre, post, rfl, heq, fun q hq => hle q (heq ▸ hq),
      fun q hq => hpre q hq⟩

/-- C7: the extreme-country lookups are deterministic with the
first-in-grouping-order tie-break — the country grouping is sorted
lexicographically, `idxmax` returns an entry of the grouping whose mean
is maximal and which every strictly earlier entry strictly undercuts
(so among tied maxima the first, i.e. lexicographically least, country
wins), and dually for `idxmin`.  Both are pure functions of the view,
so repeated evaluation returns the same country. -/
theorem c7_extreme_country_tiebreak (v : List Row) (h : country_avg_cost v ≠ []) :
    List.Sorted strLe ((country_avg_cost v).map Prod.fst) ∧
    (∃ p pre post, highest_cost_country v = some p.1 ∧
      country_avg_cost v = pre ++ p :: post ∧
      (∀ q ∈ country_avg_cost v, Q.le q.2 p.2) ∧ (∀ q ∈ pre, Q.lt q.2 p.2)) ∧
    (∃ p pre post, lowest_cost_country v = some p.1 ∧
      country_avg_cost v = pre ++ p :: post ∧
      (∀ q ∈ country_avg_cost v, Q.le p.2 q.2) ∧ (∀ q ∈ pre, Q.lt p.2 q.2)) := by
  refine ⟨?_, idxmax_first_max h, idxmin_first_min h⟩
  rw [country_avg_cost, groupby_mean_keys]
  exact List.sorted_insertionSort _ _

/-- Closed instance of `c7_extreme_country_tiebreak` on a view whose
country means tie for the maximum. -/
theorem c7_extreme_country_tiebreak_witness :
    country_avg_cost
        [⟨"A", "CCC", 2020, "Low", ⟨2, 0⟩, ⟨2, 0⟩⟩,
         ⟨"A", "AAA", 2020, "Low", ⟨1, 0⟩, ⟨1, 0⟩⟩,
         ⟨"A", "BBB", 2020, "Low", ⟨2, 0⟩, ⟨2, 0⟩⟩] ≠ [] ∧
    highest_cost_country
        [⟨"A", "CCC", 2020, "Low", ⟨2, 0⟩, ⟨2, 0⟩⟩,
         ⟨"A", "AAA", 2020, "Low", ⟨1, 0⟩, ⟨1, 0⟩⟩,
         ⟨"A", "BBB", 2020, "Low", ⟨2, 0⟩, ⟨2, 0⟩⟩] = some "BBB" ∧
    (∃ p pre post, highest_cost_country
        [⟨"A", "CCC", 2020, "Low", ⟨2, 0⟩, ⟨2, 0⟩⟩,
         ⟨"A", "AAA", 2020, "Low", ⟨1, 0⟩, ⟨1, 0⟩⟩,
         ⟨"A", "BBB", 2020, "Low", ⟨2, 0⟩, ⟨2, 0⟩⟩] = some p.1 ∧
      country_avg_cost
        [⟨"A", "CCC", 2020, "Low", ⟨2, 0⟩, ⟨2, 0⟩⟩,
         ⟨"A", "AAA", 2020, "Low", ⟨1, 0⟩, ⟨1, 0⟩⟩,
         ⟨"A", "BBB", 2020, "Low", ⟨2, 0⟩, ⟨2, 0⟩⟩] = pre ++ p :: post ∧
      (∀ q ∈ country_avg_cost
        [⟨"A", "CCC", 2020, "Low", ⟨2, 0⟩, ⟨2, 0⟩⟩,
         ⟨"A", "AAA", 2020, "Low", ⟨1, 0⟩, ⟨1, 0⟩⟩,
         ⟨"A", "BBB", 2020, "Low", ⟨2, 0⟩, ⟨2, 0⟩⟩], Q.le q.2 p.2) ∧
      (∀ q ∈ pre, Q.lt q.2 p.2)) :=
  ⟨by decide, by decide,
   (c7_extreme_country_tiebreak
      [⟨"A", "CCC", 2020, "Low", ⟨2, 0⟩, ⟨2, 0⟩⟩,
       ⟨"A", "AAA", 2020, "Low", ⟨1, 0⟩, ⟨1, 0⟩⟩,
       ⟨"A", "BBB", 2020, "Low", ⟨2, 0⟩, ⟨2, 0⟩⟩] (by decide)).2.1⟩

theorem Q.lt_irrefl' (a : Q) : ¬ a.lt a := by
  unfold Q.lt
  omega

theorem eq_of_mem_of_nodup_keys {m : List (String × Q)} (hnd : (m.map Prod.fst).Nodup)
    {p p' : String × Q} (hp : p ∈ m) (hp' : p' ∈ m) (hfst : p.1 = p'.1) : p = p' := by
  by_contra hne
  have hpw : List.Pairwise (fun a b : String × Q => a.1 ≠ b.1) m := by
    rw [List.Nodup, List.pairwise_map] at hnd
    exact hnd
  have hsymm : Symmetric (fun a b : String × Q => a.1 ≠ b.1) :=
    fun a b h heq => h heq.symm
  exact hpw.forall hsymm hp hp' hne hfst

theorem length_tri (v : Q) (m : List (String × Q)) :
    m.length = (m.filter (ltv v)).length + (m.filter (eqvv v)).length +
      (m.filter (gtv v)).length := by
  induction m with
  | nil => simp
  | cons x xs ih =>
    by_cases h1 : Q.lt x.2 v
    · have h2 : ¬ Q.eqv x.2 v := by unfold Q.lt at h1; unfold Q.eqv; omega
      have h3 : ¬ Q.lt v x.2 := by unfold Q.lt at *; omega
      have e1 : ltv v x = true := by unfold ltv; simpa using h1
      have e2 : eqvv v x = false := by unfold eqvv; simpa using h2
      have e3 : gtv v x = false := by unfold gtv; simpa using h3
      rw [List.filter_cons, List.filter_cons, List.filter_cons, e1, e2, e3]
      simp
      omega
    · by_cases h2 : Q.eqv x.2 v
      · have h3 : ¬ Q.lt v x.2 := by unfold Q.lt at *; unfold Q.eqv at h2; omega
        have e1 : ltv v x = false := by unfold ltv; simpa using h1
        have e2 : eqvv v x = true := by unfold eqvv; simpa using h2
        have e3 : gtv v x = false := by unfold gtv; simpa using h3
        rw [List.filter_cons, List.filter_cons, List.filter_cons, e1, e2, e3]
        simp
        omega
      · have h3 : Q.lt v x.2 := by unfold Q.lt at *; unfold Q.eqv at h2; omega
        have e1 : ltv v x = false := by unfold ltv; simpa using h1
        have e2 : eqvv v x = false := by unfold eqvv; simpa using h2
        have e3 : gtv v x = true := by unfold gtv; simpa using h3
        rw [List.filter_cons, List.filter_cons, List.filter_cons, e1, e2, e3]
        simp
        omega

theorem filter_ltv_bound {u : List (String × Q)} {p : String × Q}
    (hs : List.Sorted cost_le u) (hp : p ∈ u.take 10) :
    (u.filter (ltv p.2)).length ≤ 9 := by
  have hs' : List.Pairwise cost_le (u.take 10 ++ u.drop 10) := by
    rw [List.take_append_drop]
    exact hs
  have hdrop : (u.drop 10).filter (ltv p.2) = [] := by
    apply List.filter_eq_nil_iff.mpr
    intro a ha
    have hrel : cost_le p a := (List.pairwise_append.mp hs').2.2 p hp a ha
    unfold cost_le at hrel
    unfold ltv
    simpa using Q.not_lt_of_le hrel
  have htake : ((u.take 10).filter (ltv p.2)).length ≤ 9 := by
    have hsub : List.Sublist ((u.take 10).filter (ltv p.2)) (u.take 10) := List.filter_sublist _
    have hlen10 : (u.take 10).length ≤ 10 := by
      rw [List.length_take]
      omega
    by_contra hgt
    push_neg at hgt
    have hle := hsub.length_le
    have heq : ((u.take 10).filter (ltv p.2)).length = (u.take 10).length := by omega
    have hall : (u.take 10).filter (ltv p.2) = u.take 10 := hsub.eq_of_length heq
    have hp2 : p ∈ (u.take 10).filter (ltv p.2) := by
      rw [hall]
      exact hp
    have := (List.mem_filter.mp hp2).2
    unfold ltv at this
    simp at this
    exact Q.lt_irrefl' p.2 this
  conv_lhs => rw [← List.take_append_drop 10 u]
  rw [List.filter_append, List.length_append, hdrop]
  simpa using htake

theorem filter_gtv_bound {u : List (String × Q)} {p : String × Q}
    (hs : List.Sorted cost_ge u) (hp : p ∈ u.take 10) :
    (u.filter (gtv p.2)).length ≤ 9 := by
  have hs' : List.Pairwise cost_ge (u.take 10 ++ u.drop 10) := by
    rw [List.take_append_drop]
    exact hs
  have hdrop : (u.drop 10).filter (gtv p.2) = [] := by
    apply List.filter_eq_nil_iff.mpr
    intro a ha
    have hrel : cost_ge p a := (List.pairwise_append.mp hs').2.2 p hp a ha
    unfold cost_ge at hrel
    unfold gtv
    simpa using Q.not_lt_of_le hrel
  have htake : ((u.take 10).filter (gtv p.2)).length ≤ 9 := by
    have hsub : List.Sublist ((u.take 10).filter (gtv p.2)) (u.take 10) := List.filter_sublist _
    have hlen10 : (u.take 10).length ≤ 10 := by
      rw [List.length_take]
      omega
    by_contra hgt
    push_neg at hgt
    have hle := hsub.length_le
    have heq : ((u.take 10).filter (gtv p.2)).length = (u.take 10).length := by omega
    have hall : (u.take 10).filter (gtv p.2) = u.take 10 := hsub.eq_of_length heq
    have hp2 : p ∈ (u.take 10).filter (gtv p.2) := by
      rw [hall]
      exact hp
    have := (List.mem_filter.mp hp2).2
    unfold gtv at this
    simp at this
    exact Q.lt_irrefl' p.2 this
  conv_lhs => rw [← List.take_append_drop 10 u]
  rw [List.filter_append, List.length_append, hdrop]
  simpa using htake

theorem filter_eqvv_le_one {m : List (String × Q)} {v : Q}
    (hpw : List.Pairwise (fun a b => ¬ Q.eqv a.2 b.2) m) :
    (m.filter (eqvv v)).length ≤ 1 := by
  have hpwf : List.Pairwise (fun a b => ¬ Q.eqv a.2 b.2) (m.filter (eqvv v)) :=
    List.Pairwise.sublist (List.filter_sublist m) hpw
  cases hf : m.filter (eqvv v) with
  | nil => simp
  | cons x f' =>
    cases f' with
    | nil => simp
    | cons y f'' =>
      exfalso
      have hx : x ∈ m.filter (eqvv v) := by
        rw [hf]
        exact List.mem_cons_self _ _
      have hy : y ∈ m.filter (eqvv v) := by
        rw [hf]
        exact List.mem_cons_of_mem _ (List.mem_cons_self _ _)
      have hex : Q.eqv x.2 v := by
        have h := (List.mem_filter.mp hx).2
        unfold eqvv at h
        simpa using h
      have hey : Q.eqv y.2 v := by
        have h := (List.mem_filter.mp hy).2
        unfold eqvv at h
        simpa using h
      rw [hf] at hpwf
      exact (List.pairwise_cons.mp hpwf).1 y (List.mem_cons_self _ _)
        (Q.eqv_trans hex (Q.eqv_symm hey))

/-- C3 (corrected): counterexample to the claim as stated — a view with
11 distinct countries (more than 10) whose Top-10 and Bottom-10 series
share a country, since 10 largest and 10 smallest of 11 must overlap. -/
theorem c3_counterexample :
    10 < (country_avg_cost (c3_df 11)).length ∧
    "CB" ∈ (top10 (c3_df 11)).map Prod.fst ∧
    "CB" ∈ (bottom10 (c3_df 11)).map Prod.fst := by
  refine ⟨by decide, by decide, by decide⟩

/-- C3 (amended): the Top-10 series is the country-mean mapping sorted
descending and truncated to at most 10 entries, the Bottom-10 series
likewise ascending, both are subsets of the mapping, and the two are
disjoint whenever the view has at least 20 distinct countries with
pairwise value-distinct means. -/
theorem c3_top_bottom_consistency (v : List Row) :
    (∀ p ∈ top10 v, p ∈ country_avg_cost v) ∧
    (∀ p ∈ bottom10 v, p ∈ country_avg_cost v) ∧
    (top10 v).length ≤ 10 ∧ (bottom10 v).length ≤ 10 ∧
    List.Sorted cost_ge (top10 v) ∧ List.Sorted cost_le (bottom10 v) ∧
    (20 ≤ (country_avg_cost v).length →
      List.Pairwise (fun a b => ¬ Q.eqv a.2 b.2) (country_avg_cost v) →
      ∀ c, c ∈ (top10 v).map Prod.fst → c ∉ (bottom10 v).map Prod.fst) := by
  have hperm_ge : List.Perm ((country_avg_cost v).insertionSort cost_ge) (country_avg_cost v) :=
    List.perm_insertionSort _ _
  have hperm_le : List.Perm ((country_avg_cost v).insertionSort cost_le) (country_avg_cost v) :=
    List.perm_insertionSort _ _
  have hsort_ge : List.Sorted cost_ge ((country_avg_cost v).insertionSort cost_ge) :=
    List.sorted_insertionSort _ _
  have hsort_le : List.Sorted cost_le ((country_avg_cost v).insertionSort cost_le) :=
    List.sorted_insertionSort _ _
  refine ⟨?_, ?_, ?_, ?_, ?_, ?_, ?_⟩
  · intro p hp
    exact hperm_ge.subset ((List.take_sublist _ _).subset hp)
  · intro p hp
    exact hperm_le.subset ((List.take_sublist _ _).subset hp)
  · rw [top10, List.length_take]
    omega
  · rw [bottom10, List.length_take]
    omega
  · exact List.Pairwise.sublist (List.take_sublist _ _) hsort_ge
  · exact List.Pairwise.sublist (List.take_sublist _ _) hsort_le
  · intro h20 hpair c hc_top hc_bot
    obtain ⟨p, hp, hpc⟩ := List.mem_map.mp hc_top
    obtain ⟨p', hp', hpc'⟩ := List.mem_map.mp hc_bot
    have hnd : ((country_avg_cost v).map Prod.fst).Nodup := by
      rw [country_avg_cost, groupby_mean_keys]
      exact ((List.perm_insertionSort strLe _).symm).nodup (nodup_unique _)
    rw [top10] at hp
    rw [bottom10] at hp'
    have hpm : p ∈ country_avg_cost v := hperm_ge.subset ((List.take_sublist _ _).subset hp)
    have hpm' : p' ∈ country_avg_cost v := hperm_le.subset ((List.take_sublist _ _).subset hp')
    have hpp : p' = p := eq_of_mem_of_nodup_keys hnd hpm' hpm (by rw [hpc, hpc'])
    subst hpp
    have htop : ((country_avg_cost v).filter (gtv p'.2)).length ≤ 9 := by
      have hb := filter_gtv_bound hsort_ge hp
      have hl := (hperm_ge.filter (gtv p'.2)).length_eq
      omega
    have hbot : ((country_avg_cost v).filter (ltv p'.2)).length ≤ 9 := by
      have hb := filter_ltv_bound hsort_le hp'
      have hl := (hperm_le.filter (ltv p'.2)).length_eq
      omega
    have heqv : ((country_avg_cost v).filter (eqvv p'.2)).length ≤ 1 :=
      filter_eqvv_le_one hpair
    have htri := length_tri p'.2 (country_avg_cost v)
    omega

/-- Closed instance of `c3_top_bottom_consistency` on a 20-country view
with pairwise distinct means: a top country is absent from the
Bottom-10. -/
theorem c3_top_bottom_consistency_witness :
    "CT" ∉ (bottom10 (c3_df 20)).map Prod.fst :=
  (c3_top_bottom_consistency (c3_df 20)).2.2.2.2.2.2 (by decide) (by decide) "CT" (by decide)

theorem digitsVal_append (ds : List Nat) (d : Nat) :
    digitsVal (ds ++ [d]) = 10 * digitsVal ds + d := by
  unfold digitsVal
  rw [List.foldl_append]
  rfl

theorem natDigitsF_spec : ∀ fuel n, n ≤ fuel →
    natDigitsF fuel n ≠ [] ∧ (∀ d ∈ natDigitsF fuel n, d < 10) ∧
      digitsVal (natDigitsF fuel n) = n := by
  intro fuel
  induction fuel with
  | zero =>
    intro n hn
    have hn0 : n = 0 := Nat.le_zero.mp hn
    subst hn0
    refine ⟨by simp [natDigitsF], ?_, by simp [natDigitsF, digitsVal]⟩
    intro d hd
    simp [natDigitsF] at hd
    omega
  | succ fuel ih =>
    intro n hn
    by_cases h10 : n < 10
    · refine ⟨by simp [natDigitsF, h10], ?_, by simp [natDigitsF, h10, digitsVal]⟩
      intro d hd
      simp [natDigitsF, h10] at hd
      omega
    · have hdiv : n / 10 ≤ fuel := by omega
      obtain ⟨hne, hdig, hval⟩ := ih (n / 10) hdiv
      have heq : natDigitsF (fuel + 1) n = natDigitsF fuel (n / 10) ++ [n % 10] := by
        simp [natDigitsF, h10]
      refine ⟨by simp [heq], ?_, ?_⟩
      · intro d hd
        rw [heq] at hd
        rcases List.mem_append.mp hd with h | h
        · exact hdig d h
        · simp at h
          omega
      · rw [heq, digitsVal_append, hval]
        omega

theorem natDigits_spec (n : Nat) :
    natDigits n ≠ [] ∧ (∀ d ∈ natDigits n, d < 10) ∧ digitsVal (natDigits n) = n :=
  natDigitsF_spec n n (Nat.le_refl n)

theorem charToDigit_digitToChar {d : Nat} (h : d < 10) :
    charToDigit (digitToChar d) = some d := by
  interval_cases d <;> rfl

theorem digitToChar_not_special {d : Nat} (h : d < 10) :
    digitToChar d ≠ ',' ∧ digitToChar d ≠ '\n' ∧ digitToChar d ≠ '/' ∧ digitToChar d ≠ '-' := by
  interval_cases d <;> exact ⟨by decide, by decide, by decide, by decide⟩

theorem foldlM_digitChars : ∀ (ds : List Nat), (∀ d ∈ ds, d < 10) → ∀ acc : Nat,
    (ds.map digitToChar).foldlM (fun a c => (charToDigit c).map (fun d => 10 * a + d)) acc =
      some (ds.foldl (fun a d => 10 * a + d) acc) := by
  intro ds
  induction ds with
  | nil =>
    intro _ acc
    rfl
  | cons d ds ih =>
    intro hall acc
    have hd : d < 10 := hall d (List.mem_cons_self _ _)
    rw [List.map_cons, List.foldlM_cons, charToDigit_digitToChar hd]
    show (ds.map digitToChar).foldlM
      (fun a c => (charToDigit c).map (fun d => 10 * a + d)) (10 * acc + d) = _
    rw [List.foldl_cons]
    exact ih (fun x hx => hall x (List.mem_cons_of_mem _ hx)) (10 * acc + d)

theorem parseNatCh_renderNat (n : Nat) : parseNatCh (renderNat n) = some n := by
  obtain ⟨hne, hdig, hval⟩ := natDigits_spec n
  have hne2 : (natDigits n).map digitToChar ≠ [] := by simpa using hne
  unfold parseNatCh renderNat
  rw [if_neg hne2, foldlM_digitChars _ hdig 0]
  unfold digitsVal at hval
  rw [hval]

theorem renderNat_chars {n : Nat} {c : Char} (hc : c ∈ renderNat n) :
    c ≠ ',' ∧ c ≠ '\n' ∧ c ≠ '/' ∧ c ≠ '-' := by
  obtain ⟨d, hd, rfl⟩ := List.mem_map.mp hc
  exact digitToChar_not_special ((natDigits_spec n).2.1 d hd)

theorem parseIntCh_renderInt (k : Int) : parseIntCh (renderInt k) = some k := by
  cases k with
  | ofNat m =>
    show parseIntCh (renderNat m) = some (Int.ofNat m)
    cases hr : renderNat m with
    | nil =>
      have hne : renderNat m ≠ [] := by
        have := (natDigits_spec m).1
        unfold renderNat
        simpa using this
      exact absurd hr hne
    | cons c rest =>
      have hcm : c ∈ renderNat m := by
        rw [hr]
        exact List.mem_cons_self _ _
      have hc : c ≠ '-' := (renderNat_chars hcm).2.2.2
      show (if c = '-' then (parseNatCh rest).map (fun k => -(k : Int))
        else (parseNatCh (c :: rest)).map (fun k => (k : Int))) = some (Int.ofNat m)
      rw [if_neg hc, ← hr, parseNatCh_renderNat m]
      rfl
  | negSucc m =>
    show parseIntCh ('-' :: renderNat (m + 1)) = some (Int.negSucc m)
    show (if ('-' : Char) = '-' then (parseNatCh (renderNat (m + 1))).map (fun k => -(k : Int))
      else (parseNatCh ('-' :: renderNat (m + 1))).map (fun k => (k : Int))) = some (Int.negSucc m)
    rw [if_pos rfl, parseNatCh_renderNat]
    simp [Int.negSucc_eq]

theorem renderInt_chars {k : Int} {c : Char} (hc : c ∈ renderInt k) :
    c ≠ ',' ∧ c ≠ '\n' ∧ c ≠ '/' := by
  cases k with
  | ofNat m =>
    have h := renderNat_chars (show c ∈ renderNat m from hc)
    exact ⟨h.1, h.2.1, h.2.2.1⟩
  | negSucc m =>
    rcases List.mem_cons.mp hc with rfl | h
    · exact ⟨by decide, by decide, by decide⟩
    · have h2 := renderNat_chars h
      exact ⟨h2.1, h2.2.1, h2.2.2.1⟩

theorem intercalate_singleton (sep : List Char) (x : List Char) :
    List.intercalate sep [x] = x := by
  simp [List.intercalate]

theorem intercalate_cons2 (sep x y : List Char) (ls : List (List Char)) :
    List.intercalate sep (x :: y :: ls) = x ++ sep ++ List.intercalate sep (y :: ls) := by
  simp [List.intercalate]

theorem renderQ_eq_intercalate (q : Q) :
    renderQ q = List.intercalate ['/'] [renderInt q.num, renderNat q.den] := by
  rw [intercalate_cons2, intercalate_singleton]
  simp [renderQ]

theorem parseQCh_renderQ (q : Q) : parseQCh (renderQ q) = some q := by
  have hsplit : (renderQ q).splitOn '/' = [renderInt q.num, renderNat q.den] := by
    rw [renderQ_eq_intercalate]
    apply List.splitOn_intercalate
    · intro l hl
      rcases List.mem_cons.mp hl with rfl | hl
      · intro hmem
        exact (renderInt_chars hmem).2.2 rfl
      · rcases List.mem_cons.mp hl with rfl | hl
        · intro hmem
          exact (renderNat_chars hmem).2.2.1 rfl
        · cases hl
    · exact List.cons_ne_nil _ _
  unfold parseQCh
  rw [hsplit]
  show (parseIntCh (renderInt q.num)).bind (fun n =>
    (parseNatCh (renderNat q.den)).bind (fun d =>
      if d = 0 then none else some ⟨n, d - 1⟩)) = some q
  rw [parseIntCh_renderInt, parseNatCh_renderNat]
  show (if q.den = 0 then none else some (⟨q.num, q.den - 1⟩ : Q)) = some q
  rw [if_neg (Nat.pos_iff_ne_zero.mp q.den_pos)]
  show some (⟨q.num, q.den - 1⟩ : Q) = some q
  unfold Q.den
  rfl

theorem renderQ_chars {q : Q} {c : Char} (hc : c ∈ renderQ q) : c ≠ ',' ∧ c ≠ '\n' := by
  unfold renderQ at hc
  rcases List.mem_append.mp hc with h | h
  · exact ⟨(renderInt_chars h).1, (renderInt_chars h).2.1⟩
  · rcases List.mem_cons.mp h with rfl | h
    · exact ⟨by decide, by decide⟩
    · exact ⟨(renderNat_chars h).1, (renderNat_chars h).2.1⟩

theorem rowFields_safe {r : Row} (hr : goodRow r) :
    ∀ f ∈ rowFields r, (',' ∉ f) ∧ ('\n' ∉ f) := by
  intro f hf
  unfold rowFields at hf
  obtain ⟨h1, h2, h3⟩ := hr
  rcases List.mem_cons.mp hf with rfl | hf
  · exact ⟨h1.1, h1.2⟩
  · rcases List.mem_cons.mp hf with rfl | hf
    · exact ⟨h2.1, h2.2⟩
    · rcases List.mem_cons.mp hf with rfl | hf
      · exact ⟨fun hm => (renderNat_chars hm).1 rfl, fun hm => (renderNat_chars hm).2.1 rfl⟩
      · rcases List.mem_cons.mp hf with rfl | hf
        · exact ⟨h3.1, h3.2⟩
        · rcases List.mem_cons.mp hf with rfl | hf
          · exact ⟨fun hm => (renderQ_chars hm).1 rfl, fun hm => (renderQ_chars hm).2 rfl⟩
          · rcases List.mem_cons.mp hf with rfl | hf
            · exact ⟨fun hm => (renderQ_chars hm).1 rfl, fun hm => (renderQ_chars hm).2 rfl⟩
            · cases hf

theorem parseLine_renderLine {r : Row} (hr : goodRow r) :
    parseLine (renderLine r) = some r := by
  have hsplit : (renderLine r).splitOn ',' = rowFields r := by
    unfold renderLine
    apply List.splitOn_intercalate
    · intro l hl
      exact (rowFields_safe hr l hl).1
    · unfold rowFields
      exact List.cons_ne_nil _ _
  unfold parseLine
  rw [hsplit]
  show (parseNatCh (renderNat r.year)).bind (fun y =>
    (parseQCh (renderQ r.cost_healthy_diet_ppp_usd)).bind (fun c1 =>
      (parseQCh (renderQ r.annual_cost_healthy_diet_usd)).bind (fun c2 =>
        some ⟨String.mk r.region.data, String.mk r.country.data, y,
          String.mk r.cost_category.data, c1, c2⟩))) = some r
  rw [parseNatCh_renderNat, parseQCh_renderQ, parseQCh_renderQ]
  rfl

theorem mem_intercalate_char {c sep : Char} :
    ∀ {ls : List (List Char)}, c ∈ List.intercalate [sep] ls →
      c = sep ∨ ∃ l ∈ ls, c ∈ l := by
  intro ls
  induction ls with
  | nil =>
    intro h
    simp [List.intercalate] at h
  | cons x ls ih =>
    cases ls with
    | nil =>
      intro h
      rw [intercalate_singleton] at h
      exact Or.inr ⟨x, List.mem_cons_self _ _, h⟩
    | cons y ls' =>
      intro h
      rw [intercalate_cons2] at h
      rcases List.mem_append.mp h with h1 | h2
      · rcases List.mem_append.mp h1 with hx | hsep
        · exact Or.inr ⟨x, List.mem_cons_self _ _, hx⟩
        · left
          simpa using hsep
      · rcases ih h2 with h3 | ⟨l, hl, hcl⟩
        · exact Or.inl h3
        · exact Or.inr ⟨l, List.mem_cons_of_mem _ hl, hcl⟩

theorem renderLine_newline_free {r : Row} (hr : goodRow r) : '\n' ∉ renderLine r := by
  intro hmem
  unfold renderLine at hmem
  rcases mem_intercalate_char hmem with h | ⟨f, hf, hcf⟩
  · exact absurd h (by decide)
  · exact (rowFields_safe hr f hf).2 hcf

theorem parseLines_map {v : List Row} (h : ∀ r ∈ v, goodRow r) :
    parseLines (v.map renderLine) = some v := by
  induction v with
  | nil => rfl
  | cons r v ih =>
    rw [List.map_cons]
    show (parseLine (renderLine r)).bind
      (fun r0 => (parseLines (v.map renderLine)).bind (fun rs => some (r0 :: rs))) = _
    rw [parseLine_renderLine (h r (List.mem_cons_self _ _)),
      ih (fun x hx => h x (List.mem_cons_of_mem _ hx))]
    rfl

/-- C6: re-parsing the downloaded CSV byte buffer reproduces the
filtered view exactly — same rows in the same order — provided the
textual fields contain no separator characters; the buffer carries a
header row, and the download uses the stated file name and MIME type. -/
theorem c6_csv_roundtrip (v : List Row) (h : ∀ r ∈ v, goodRow r) :
    parse_csv (csv_data v) = some v ∧
    file_name = "filtered_healthy_diet_data.csv" ∧ mime_type = "text/csv" := by
  refine ⟨?_, rfl, rfl⟩
  have hsplit : (csv_data v).splitOn '\n' = headerLine :: v.map renderLine := by
    unfold csv_data
    apply List.splitOn_intercalate
    · intro l hl
      rcases List.mem_cons.mp hl with rfl | hl
      · decide
      · obtain ⟨r, hr, rfl⟩ := List.mem_map.mp hl
        exact renderLine_newline_free (h r hr)
    · exact List.cons_ne_nil _ _
  unfold parse_csv
  rw [hsplit]
  show (if headerLine = headerLine then parseLines (v.map renderLine) else none) = some v
  rw [if_pos rfl]
  exact parseLines_map h

/-- Closed instance of `c6_csv_roundtrip` on the two-row filtered view
of the worked example. -/
theorem c6_csv_roundtrip_witness :
    (∀ r ∈ [ex_row1, ex_row2], goodRow r) ∧
    parse_csv (csv_data [ex_row1, ex_row2]) = some [ex_row1, ex_row2] :=
  ⟨by decide, (c6_csv_roundtrip [ex_row1, ex_row2] (by decide)).1⟩
